import Mathlib

/-!
# Verification of the L-system rewriting and step-projection engine

Shallow embedding of the Python modules `matrix.py`, `fractal_base.py` and
`drawing.py` of the `lsystems` repository, with proofs of the testable
properties stated in the specification.

* `PyMatrix` models the `Matrix` class of `matrix.py`: a bare list-of-lists
  matrix over integers.  Multiplication mirrors the Python 2 semantics of
  `[[sum(map(mul, row, col)) for col in izip(*other.array)] for row ...]`:
  `izip(*arr)` truncates to the shortest row, while `map` over two sequences
  of different lengths pads the shorter one with `None`, which makes `mul`
  raise `TypeError`.  A raised exception is modelled by `none`.
* `PyMatrix.powAux` models `Matrix.__pow__` with explicit fuel, so that the
  non-termination of the Python recursion on negative exponents is provable
  (every fuel bound is exhausted).
* `Grammar`, `rulesGet` and `generate` model `LSystemFractal` and its lazy
  `generate` method; `transition_matrix`, `initial_vector` and
  `project_steps` model `generate_transition_matrix` and `project_steps`
  from `fractal_base.py`.
* `ProcessingTurtle` models the turtle of `drawing.py`.
-/

/-- The number of tuples produced by Python's `izip(*arr)`: the length of the
shortest row (`0` when there are no rows). -/
def minRowLen : List (List Int) → Nat
  | [] => 0
  | r :: rs => rs.foldl (fun m row => min m row.length) r.length

/-- The columns of `arr` as produced by `izip(*arr)`: `minRowLen arr` tuples,
the `j`-th holding the `j`-th element of every row. -/
def pyCols (arr : List (List Int)) : List (List Int) :=
  (List.range (minRowLen arr)).map (fun j => arr.map (fun row => row.getD j 0))

/-- `sum(map(mul, row, col))` in Python 2: `map` pads the shorter sequence
with `None`, so the sum raises (modelled by `none`) unless the lengths agree. -/
def dotP (row col : List Int) : Option Int :=
  if row.length = col.length then some (List.zipWith (· * ·) row col).sum
  else none

/-- A list comprehension whose element expression may raise: the whole
comprehension raises iff some element does. -/
def optMap (f : α → Option β) : List α → Option (List β)
  | [] => some []
  | a :: l =>
    match f a, optMap f l with
    | some b, some bs => some (b :: bs)
    | _, _ => none

/-- The `Matrix` class of `matrix.py` (named `PyMatrix` here to avoid clashing
with Mathlib's `Matrix`), instantiated at integer entries, which is the ring
used by the step projector. -/
structure PyMatrix where
  array : List (List Int)
deriving DecidableEq

/-- `Matrix.__mul__`: `Matrix([[sum(map(mul, row, col)) for col in
izip(*other.array)] for row in self.array])`, with a raised `TypeError`
modelled by `none`. -/
def PyMatrix.mul (A B : PyMatrix) : Option PyMatrix :=
  (optMap (fun row => optMap (dotP row) (pyCols B.array)) A.array).map PyMatrix.mk

/-- `Matrix.identity(n)`: `[[int(x == y) for x in xrange(n)] for y in
xrange(n)]`. -/
def PyMatrix.identity (n : Nat) : PyMatrix :=
  ⟨(List.range n).map (fun y => (List.range n).map
      (fun x => if x = y then (1 : Int) else 0))⟩

/-- Outcome of running `Matrix.__pow__` for a bounded number of recursive
calls: a returned value, a propagated runtime error, or fuel exhaustion
(the recursion is still running). -/
inductive PowResult where
  | ok (M : PyMatrix)
  | err
  | fuel
deriving DecidableEq

/-- `Matrix.__pow__` with explicit fuel.  Python's `n // 2` is floor division
(`Int.fdiv`) and `n & 1` equals `n % 2` with the sign of the divisor
(`Int.fmod`), exactly as the source comment notes. -/
def PyMatrix.powAux (M : PyMatrix) (n : Int) : Nat → PowResult
  | 0 => .fuel
  | fuel + 1 =>
    if n = 0 then .ok (PyMatrix.identity M.array.length)
    else if n = 1 then .ok M
    else
      match M.powAux (Int.fdiv n 2) fuel with
      | .ok square =>
        match M.powAux (Int.fmod n 2) fuel with
        | .ok p =>
          match p.mul square with
          | some ps =>
            match ps.mul square with
            | some r => .ok r
            | none => .err
          | none => .err
        | e => e
      | e => e

/-- `Matrix.__pow__` run with enough fuel for every terminating execution
(the recursion depth of the Python code is at most `log₂ n + 2`). -/
def PyMatrix.pow (M : PyMatrix) (n : Int) : PowResult :=
  M.powAux n (n.toNat + 1)

/-- The run of `Matrix.__pow__` on `M` and `n` exhausts every fuel bound:
the Python recursion never returns and never raises. -/
def PowDiverges (M : PyMatrix) (n : Int) : Prop :=
  ∀ fuel, M.powAux n fuel = .fuel

/-! ## Well-formed matrices and their interpretation as Mathlib matrices -/

/-- Well-formedness: `A` has `m` rows, each of length `n`. -/
abbrev PyMatrix.WF (A : PyMatrix) (m n : Nat) : Prop :=
  A.array.length = m ∧ ∀ row ∈ A.array, row.length = n

/-- Entry access, Python's `array[i][j]`, with a default out of range. -/
def PyMatrix.entry (A : PyMatrix) (i j : Nat) : Int :=
  (A.array.getD i []).getD j 0

/-- Interpretation of a `PyMatrix` as an `m × n` Mathlib matrix. -/
def PyMatrix.toMat (A : PyMatrix) (m n : Nat) : Matrix (Fin m) (Fin n) Int :=
  Matrix.of fun i j => A.entry i j

theorem getD_map_of_lt (f : α → β) (d : β) (l : List α) (i : Nat) (h : i < l.length) :
    (l.map f).getD i d = f (l.get ⟨i, h⟩) := by
  rw [List.getD_eq_getElem _ _ (by simpa using h), List.getElem_map]
  rfl

theorem getD_eq_get_of_lt (l : List α) (d : α) (i : Nat) (h : i < l.length) :
    l.getD i d = l.get ⟨i, h⟩ :=
  List.getD_eq_getElem l d h

/-- Two well-formed matrices with the same interpretation are equal. -/
theorem PyMatrix.wf_ext {m n : Nat} {A B : PyMatrix}
    (hA : A.WF m n) (hB : B.WF m n) (h : A.toMat m n = B.toMat m n) : A = B := by
  obtain ⟨hAl, hAr⟩ := hA
  obtain ⟨hBl, hBr⟩ := hB
  have harr : A.array = B.array := by
    apply List.ext_getElem (by rw [hAl, hBl])
    intro i hiA hiB
    have hrA := hAr _ (List.getElem_mem hiA)
    have hrB := hBr _ (List.getElem_mem hiB)
    apply List.ext_getElem (by rw [hrA, hrB])
    intro j hjA hjB
    have him : i < m := hAl ▸ hiA
    have hjn : j < n := hrA ▸ hjA
    have h2 := congrFun (congrFun h ⟨i, him⟩) ⟨j, hjn⟩
    simp only [PyMatrix.toMat, Matrix.of_apply, PyMatrix.entry] at h2
    rwa [List.getD_eq_getElem _ _ hiA, List.getD_eq_getElem _ _ hiB,
      List.getD_eq_getElem _ _ hjA, List.getD_eq_getElem _ _ hjB] at h2
  obtain ⟨Aa⟩ := A
  obtain ⟨Ba⟩ := B
  simpa using harr

theorem foldl_min_const {q : Nat} :
    ∀ (rs : List (List Int)), (∀ r ∈ rs, r.length = q) →
      rs.foldl (fun m row => min m row.length) q = q := by
  intro rs
  induction rs with
  | nil => intro _; rfl
  | cons r rs ih =>
    intro h
    have hr : r.length = q := h r (by simp)
    simpa [hr] using ih (fun r hr => h r (by simp [hr]))

theorem minRowLen_of_wf {q : Nat} {arr : List (List Int)}
    (h : ∀ r ∈ arr, r.length = q) (hne : arr ≠ []) : minRowLen arr = q := by
  match arr, hne with
  | r :: rs, _ =>
    have hr : r.length = q := h r (by simp)
    simpa [minRowLen, hr] using foldl_min_const rs (fun r hr => h r (by simp [hr]))

theorem pyCols_length (arr : List (List Int)) :
    (pyCols arr).length = minRowLen arr := by
  simp [pyCols]

theorem pyCols_get (arr : List (List Int)) (j : Nat) (h : j < (pyCols arr).length) :
    (pyCols arr).get ⟨j, h⟩ = arr.map (fun row => row.getD j 0) := by
  have hj : j < minRowLen arr := by rwa [pyCols_length] at h
  simp [pyCols]

theorem mem_pyCols {arr : List (List Int)} {col : List Int}
    (h : col ∈ pyCols arr) : col.length = arr.length := by
  simp only [pyCols, List.mem_map, List.mem_range] at h
  obtain ⟨j, _, rfl⟩ := h
  simp

/-- Sum of the pointwise products of two lists of the same length `n`. -/
theorem zipWith_mul_sum :
    ∀ (n : Nat) (r c : List Int), r.length = n → c.length = n →
      (List.zipWith (· * ·) r c).sum = ∑ l : Fin n, r.getD l 0 * c.getD l 0 := by
  intro n
  induction n with
  | zero =>
    intro r c hr hc
    rw [List.length_eq_zero] at hr hc
    simp [hr, hc]
  | succ n ih =>
    intro r c hr hc
    match r, c with
    | a :: r, b :: c =>
      simp only [List.zipWith_cons_cons, List.sum_cons]
      rw [ih r c (by simpa using hr) (by simpa using hc), Fin.sum_univ_succ]
      simp [List.getD_cons_succ]

theorem dotP_of_len {n : Nat} {r c : List Int} (hr : r.length = n) (hc : c.length = n) :
    dotP r c = some (List.zipWith (· * ·) r c).sum := by
  simp [dotP, hr, hc]

theorem optMap_eq_map {f : α → Option β} {g : α → β} :
    ∀ {l : List α}, (∀ a ∈ l, f a = some (g a)) → optMap f l = some (l.map g) := by
  intro l
  induction l with
  | nil => intro _; rfl
  | cons a l ih =>
    intro h
    have ha := h a (by simp)
    have hl := ih (fun b hb => h b (by simp [hb]))
    simp [optMap, ha, hl]

/-- The total product of two dimension-compatible matrices; `PyMatrix.mul`
computes exactly this when the dimensions agree. -/
def PyMatrix.mulT (A B : PyMatrix) : PyMatrix :=
  ⟨A.array.map (fun row => (pyCols B.array).map
      (fun col => (List.zipWith (· * ·) row col).sum))⟩

theorem PyMatrix.mul_eq_some {m n p : Nat} {A B : PyMatrix}
    (hA : A.WF m n) (hB : B.WF n p) : A.mul B = some (A.mulT B) := by
  unfold PyMatrix.mul PyMatrix.mulT
  rw [optMap_eq_map]
  · rfl
  intro row hrow
  apply optMap_eq_map
  intro col hcol
  exact dotP_of_len (hA.2 row hrow) (by rw [mem_pyCols hcol, hB.1])

theorem PyMatrix.mulT_wf {m n p : Nat} {A B : PyMatrix} (hA : A.WF m n) (hB : B.WF n p)
    (hc : 0 < n ∨ p = 0 ∨ m = 0) : (A.mulT B).WF m p := by
  constructor
  · simp [PyMatrix.mulT, hA.1]
  intro row hrow
  simp only [PyMatrix.mulT, List.mem_map] at hrow
  obtain ⟨row₀, hrow₀, rfl⟩ := hrow
  simp only [List.length_map, pyCols_length]
  rcases hc with hn | hp | hm
  · refine minRowLen_of_wf hB.2 ?_
    intro hnil
    have h1 := hB.1
    rw [hnil] at h1
    simp at h1
    omega
  · subst hp
    rcases heq : B.array with _ | ⟨r, rs⟩
    · simp [heq, minRowLen]
    · exact minRowLen_of_wf (heq ▸ hB.2) (by simp)
  · subst hm
    have : A.array = [] := List.length_eq_zero.mp hA.1
    rw [this] at hrow₀
    cases hrow₀

theorem PyMatrix.toMat_mulT {m n p : Nat} {A B : PyMatrix} (hA : A.WF m n) (hB : B.WF n p) :
    (A.mulT B).toMat m p = A.toMat m n * B.toMat n p := by
  ext i j
  have hiA : (i : Nat) < A.array.length := by rw [hA.1]; exact i.isLt
  have hrowlen : (A.array.get ⟨i, hiA⟩).length = n :=
    hA.2 _ (List.get_mem _ _ _)
  simp only [PyMatrix.toMat, Matrix.of_apply, PyMatrix.entry, Matrix.mul_apply]
  rw [show ((A.mulT B).array.getD i []) =
      (pyCols B.array).map (fun col => (List.zipWith (· * ·) (A.array.get ⟨i, hiA⟩) col).sum) by
    simp only [PyMatrix.mulT]
    exact getD_map_of_lt _ _ _ _ hiA]
  rw [getD_eq_get_of_lt A.array [] (i : Nat) hiA]
  rcases Nat.eq_zero_or_pos n with hn | hn
  · -- no rows in `B`, hence no columns: both sides degenerate to `0`
    have hBnil : B.array = [] := List.length_eq_zero.mp (by rw [hB.1, hn])
    rw [hBnil]
    subst hn
    simp [pyCols, minRowLen]
  · have hBne : B.array ≠ [] := by
      intro hnil
      have h1 := hB.1
      rw [hnil] at h1
      simp at h1
      omega
    have hmin : minRowLen B.array = p := minRowLen_of_wf hB.2 hBne
    have hjcols : (j : Nat) < (pyCols B.array).length := by
      rw [pyCols_length, hmin]; exact j.isLt
    rw [getD_map_of_lt _ _ _ _ hjcols, pyCols_get]
    have hcollen : (B.array.map (fun row => row.getD (j : Nat) 0)).length = n := by
      simp [hB.1]
    rw [zipWith_mul_sum n _ _ hrowlen hcollen]
    apply Finset.sum_congr rfl
    intro l _
    have hlB : (l : Nat) < B.array.length := by rw [hB.1]; exact l.isLt
    rw [getD_map_of_lt _ _ _ _ hlB, getD_eq_get_of_lt B.array [] (l : Nat) hlB]

theorem PyMatrix.identity_wf (n : Nat) : (PyMatrix.identity n).WF n n := by
  constructor
  · simp [PyMatrix.identity]
  · intro row hrow
    simp only [PyMatrix.identity, List.mem_map] at hrow
    obtain ⟨y, _, rfl⟩ := hrow
    simp

theorem PyMatrix.toMat_identity (n : Nat) : (PyMatrix.identity n).toMat n n = 1 := by
  ext i j
  have hi : (i : Nat) < (List.range n).length := by simp
  simp only [PyMatrix.toMat, Matrix.of_apply, PyMatrix.entry, PyMatrix.identity]
  rw [getD_map_of_lt _ _ _ _ hi]
  have hj : (j : Nat) < (List.range n).length := by simp
  rw [getD_map_of_lt _ _ _ _ hj]
  simp only [List.get_range]
  rcases eq_or_ne i j with h | h
  · simp [h, Matrix.one_apply]
  · have : (j : Nat) ≠ (i : Nat) := fun hc => h (Fin.ext hc.symm)
    simp [this, Matrix.one_apply, h]

/-! ## Exponentiation by squaring: termination, semantics, divergence -/

theorem optMap_eq_none {f : α → Option β} :
    ∀ {l : List α} (a : α), a ∈ l → f a = none → optMap f l = none := by
  intro l
  induction l with
  | nil => intro a ha; cases ha
  | cons b l ih =>
    intro a ha hfa
    rcases List.mem_cons.mp ha with rfl | ha'
    · simp only [optMap, hfa]
    · rw [show optMap f (b :: l) = match f b, optMap f l with
        | some c, some cs => some (c :: cs)
        | _, _ => none from rfl, ih a ha' hfa]
      cases f b <;> rfl

theorem PyMatrix.powAux_ok {k : Nat} {M : PyMatrix} (hM : M.WF k k) :
    ∀ (fuel n : Nat), n + 1 ≤ fuel →
      ∃ P, M.powAux (↑n) fuel = .ok P ∧ P.WF k k ∧
        P.toMat k k = (M.toMat k k) ^ n := by
  intro fuel
  induction fuel with
  | zero => intro n h; omega
  | succ fuel ih =>
    intro n hn
    match n with
    | 0 =>
      refine ⟨PyMatrix.identity k, ?_, PyMatrix.identity_wf k, by
        rw [PyMatrix.toMat_identity, pow_zero]⟩
      simp [PyMatrix.powAux, hM.1]
    | 1 =>
      refine ⟨M, ?_, hM, by rw [pow_one]⟩
      simp [PyMatrix.powAux]
    | n + 2 =>
      have h0 : ((n : Int) + 2) ≠ 0 := by omega
      have h1 : ((n : Int) + 2) ≠ 1 := by omega
      have hd : Int.fdiv (((n : Nat) + 2 : Nat) : Int) 2 = ↑((n + 2) / 2) := by
        rw [Int.fdiv_eq_ediv _ (by norm_num)]
        exact (Int.ofNat_ediv (n + 2) 2).symm
      have hm2 : Int.fmod (((n : Nat) + 2 : Nat) : Int) 2 = ↑((n + 2) % 2) := by
        rw [Int.fmod_eq_emod _ (by norm_num)]
        exact (Int.ofNat_emod (n + 2) 2).symm
      obtain ⟨SQ, hSQ, hSQwf, hSQval⟩ := ih ((n + 2) / 2) (by omega)
      obtain ⟨P0, hP0, hP0wf, hP0val⟩ := ih ((n + 2) % 2) (by omega)
      have hmul1 := PyMatrix.mul_eq_some hP0wf hSQwf
      have hcond : 0 < k ∨ k = 0 ∨ k = 0 := by omega
      have hwf1 := PyMatrix.mulT_wf hP0wf hSQwf hcond
      have hmul2 := PyMatrix.mul_eq_some hwf1 hSQwf
      have hwf2 := PyMatrix.mulT_wf hwf1 hSQwf hcond
      refine ⟨(P0.mulT SQ).mulT SQ, ?_, hwf2, ?_⟩
      · show M.powAux (↑(n + 2)) (fuel + 1) = _
        simp only [PyMatrix.powAux]
        rw [if_neg (by push_cast; omega), if_neg (by push_cast; omega)]
        rw [show Int.fdiv (↑(n + 2)) 2 = ((((n + 2) / 2 : Nat)) : Int) from hd,
            show Int.fmod (↑(n + 2)) 2 = ((((n + 2) % 2 : Nat)) : Int) from hm2,
            hSQ, hP0]
        simp only [hmul1, hmul2]
      · rw [PyMatrix.toMat_mulT hwf1 hSQwf, PyMatrix.toMat_mulT hP0wf hSQwf,
          hP0val, hSQval, ← pow_add, ← pow_add]
        congr 1
        omega

theorem PyMatrix.pow_ok {k : Nat} {M : PyMatrix} (hM : M.WF k k) (n : Nat) :
    ∃ P, M.pow (↑n) = .ok P ∧ P.WF k k ∧ P.toMat k k = (M.toMat k k) ^ n := by
  have h : ((n : Int)).toNat + 1 = n + 1 := by omega
  rw [PyMatrix.pow, h]
  exact PyMatrix.powAux_ok hM (n + 1) n (Nat.le_refl _)

theorem PyMatrix.powAux_neg {M : PyMatrix} {n : Int} (hn : n < 0) :
    ∀ fuel, M.powAux n fuel = .fuel := by
  intro fuel
  induction fuel generalizing n with
  | zero => rfl
  | succ fuel ih =>
    have h0 : n ≠ 0 := by omega
    have h1 : n ≠ 1 := by omega
    have hdneg : Int.fdiv n 2 < 0 := by
      rw [Int.fdiv_eq_ediv _ (by norm_num)]
      exact Int.ediv_neg' hn (by norm_num)
    simp only [PyMatrix.powAux]
    rw [if_neg h0, if_neg h1, ih hdneg]

/-- C4: for every square integer matrix `M` and non-negative integers `a`, `b`,
`power(M, a + b) = power(M, a) * power(M, b)` and `power(M, 0)` is the
identity matrix of the same dimension. -/
theorem pow_add_mul_identity {k : Nat} (M : PyMatrix) (hM : M.WF k k) (a b : Nat) :
    M.pow 0 = .ok (PyMatrix.identity k) ∧
    ∃ P Q R, M.pow (↑a) = .ok P ∧ M.pow (↑b) = .ok Q ∧
      M.pow (↑a + ↑b) = .ok R ∧ P.mul Q = some R := by
  constructor
  · show M.powAux 0 ((0 : Int).toNat + 1) = _
    simp [PyMatrix.powAux, hM.1]
  obtain ⟨P, hP, hPwf, hPval⟩ := PyMatrix.pow_ok hM a
  obtain ⟨Q, hQ, hQwf, hQval⟩ := PyMatrix.pow_ok hM b
  obtain ⟨R, hR, hRwf, hRval⟩ := PyMatrix.pow_ok hM (a + b)
  refine ⟨P, Q, R, hP, hQ, ?_, ?_⟩
  · rw [show ((a : Int) + (b : Int)) = ((a + b : Nat) : Int) by push_cast; ring]
    exact hR
  · rw [PyMatrix.mul_eq_some hPwf hQwf]
    congr 1
    have hcond : 0 < k ∨ k = 0 ∨ k = 0 := by omega
    refine PyMatrix.wf_ext (PyMatrix.mulT_wf hPwf hQwf hcond) hRwf ?_
    rw [PyMatrix.toMat_mulT hPwf hQwf, hPval, hQval, hRval, pow_add]

theorem pow_add_mul_identity_witness :
    (PyMatrix.mk [[2]]).WF 1 1 ∧
    ((PyMatrix.mk [[2]]).pow 0 = .ok (PyMatrix.identity 1) ∧
      ∃ P Q R, (PyMatrix.mk [[2]]).pow ((1 : Nat) : Int) = .ok P ∧
        (PyMatrix.mk [[2]]).pow ((2 : Nat) : Int) = .ok Q ∧
        (PyMatrix.mk [[2]]).pow (((1 : Nat) : Int) + ((2 : Nat) : Int)) = .ok R ∧
        P.mul Q = some R) :=
  ⟨by constructor <;> decide, pow_add_mul_identity (PyMatrix.mk [[2]]) ⟨by decide, by decide⟩ 1 2⟩

/-- C7 counterexample: `A = [[1]]` has one column and `B = []` has zero rows,
yet the Python multiplication does not raise: it silently returns the
degenerate 1-by-0 matrix `[[]]`, because `izip(*[])` yields no columns. -/
theorem mul_mismatch_returns_cex :
    (PyMatrix.mk [[1]]).mul (PyMatrix.mk []) = some (PyMatrix.mk [[]]) := by
  rfl

/-- C7 (amended): when both operands are non-empty well-formed matrices with
at least one column each, a mismatch between the column count of `A` and the
row count of `B` makes the multiplication raise (no truncated result). -/
theorem mul_dimension_mismatch_fails {m n p q : Nat} {A B : PyMatrix}
    (hA : A.WF m n) (hB : B.WF p q) (hm : 0 < m) (hp : 0 < p) (hq : 0 < q)
    (hnp : n ≠ p) : A.mul B = none := by
  have hAne : 0 < A.array.length := by rw [hA.1]; exact hm
  have hBne : B.array ≠ [] := by
    intro hnil
    have h1 := hB.1
    rw [hnil] at h1
    simp at h1
    omega
  have hmin : minRowLen B.array = q := minRowLen_of_wf hB.2 hBne
  have hcols : 0 < (pyCols B.array).length := by rw [pyCols_length, hmin]; exact hq
  have hrowmem : A.array.get ⟨0, hAne⟩ ∈ A.array := List.get_mem _ _ _
  have hcolmem : (pyCols B.array).get ⟨0, hcols⟩ ∈ pyCols B.array := List.get_mem _ _ _
  have hinner : optMap (dotP (A.array.get ⟨0, hAne⟩)) (pyCols B.array) = none := by
    apply optMap_eq_none _ hcolmem
    have hrl : (A.array.get ⟨0, hAne⟩).length = n := hA.2 _ hrowmem
    have hcl : ((pyCols B.array).get ⟨0, hcols⟩).length = p := by
      rw [mem_pyCols hcolmem, hB.1]
    unfold dotP
    rw [hrl, hcl]
    simp [hnp]
  rw [PyMatrix.mul, optMap_eq_none _ hrowmem hinner]
  rfl

theorem mul_dimension_mismatch_fails_witness :
    ((PyMatrix.mk [[1, 2]]).WF 1 2 ∧ (PyMatrix.mk [[5], [6], [7]]).WF 3 1 ∧ 2 ≠ 3) ∧
    (PyMatrix.mk [[1, 2]]).mul (PyMatrix.mk [[5], [6], [7]]) = none :=
  ⟨⟨⟨by decide, by decide⟩, ⟨by decide, by decide⟩, by decide⟩,
    @mul_dimension_mismatch_fails 1 2 3 1 (PyMatrix.mk [[1, 2]]) (PyMatrix.mk [[5], [6], [7]])
      ⟨by decide, by decide⟩ ⟨by decide, by decide⟩ (by decide) (by decide) (by decide)
      (by decide)⟩

/-- C8 counterexample: on the square matrix `[[2]]` and exponent `-1` the
Python recursion `self ** (n // 2)` loops forever (`-1 // 2 == -1`): no fuel
bound suffices, so `__pow__` neither returns nor raises any error, contrary
to the claimed `UnsupportedExponent` failure. -/
theorem pow_negative_diverges_cex : PowDiverges (PyMatrix.mk [[2]]) (-1) :=
  fun _ => PyMatrix.powAux_neg (by norm_num) _

/-- C8 (amended): for every matrix and every negative integer exponent,
`Matrix.__pow__` diverges: the recursion on `n // 2` never reaches a base
case, so the code never returns a value and never raises
`UnsupportedExponent` (in CPython the run only dies by the interpreter
recursion limit). -/
theorem pow_negative_diverges (M : PyMatrix) (n : Int) (hn : n < 0) : PowDiverges M n :=
  fun _ => PyMatrix.powAux_neg hn _

theorem pow_negative_diverges_witness :
    ((-2 : Int) < 0) ∧ (PyMatrix.mk [[3]]).powAux (-2) 6 = .fuel :=
  ⟨by decide, pow_negative_diverges (PyMatrix.mk [[3]]) (-2) (by decide) 6⟩

/-! ## The L-system grammar: `LSystemFractal` of `fractal_base.py` -/

/-- The grammar data of an `LSystemFractal`: the initial string (the field
named `axiom` in the Python source) and the rewrite rules, a dictionary from
symbols to replacement strings modelled as an association list. -/
structure Grammar where
  start : List Char
  rules : List (Char × List Char)
deriving DecidableEq

/-- `self.rules.get(sym, sym)`: the replacement of a symbol, the symbol
itself when no rule exists for it. -/
def rulesGet (g : Grammar) (sym : Char) : List Char :=
  match g.rules.lookup sym with
  | some r => r
  | none => [sym]

/-- Structural-recursion core of `LSystemFractal.generate`. -/
def generateN (g : Grammar) : Nat → List Char
  | 0 => g.start
  | d + 1 => (generateN g d).flatMap (fun sym => rulesGet g sym)

/-- `LSystemFractal.generate(depth)`: yields the axiom when `depth <= 0`, and
otherwise rewrites every symbol of `generate(depth - 1)` in order.  The
Python depth argument is an arbitrary integer. -/
def generate (g : Grammar) (depth : Int) : List Char :=
  generateN g depth.toNat

/-- C3: `generate(g, 0)` yields exactly the axiom in order, and for `d > 0`,
`generate(g, d)` is the in-order concatenation of `rules.get(s, [s])` over
the symbols `s` of `generate(g, d - 1)`. -/
theorem generate_unfolds (g : Grammar) :
    generate g 0 = g.start ∧
    ∀ d : Int, 0 < d →
      generate g d = (generate g (d - 1)).flatMap (fun sym => rulesGet g sym) := by
  refine ⟨rfl, ?_⟩
  intro d hd
  unfold generate
  rw [show d.toNat = (d - 1).toNat + 1 by omega]
  rfl

theorem generate_unfolds_witness :
    (generate ⟨['F'], [('F', "F+F-F".toList)]⟩ 0 = ['F'] ∧
      (0 : Int) < 1) ∧
    generate ⟨['F'], [('F', "F+F-F".toList)]⟩ 1 =
      (generate ⟨['F'], [('F', "F+F-F".toList)]⟩ (1 - 1)).flatMap
        (fun sym => rulesGet ⟨['F'], [('F', "F+F-F".toList)]⟩ sym) :=
  ⟨⟨(generate_unfolds ⟨['F'], [('F', "F+F-F".toList)]⟩).1, by decide⟩,
    (generate_unfolds ⟨['F'], [('F', "F+F-F".toList)]⟩).2 1 (by decide)⟩

/-- C10: every depth `d ≤ 0`, negative depths included, is silently treated
like depth `0`: `generate` yields exactly the axiom (the Python code tests
`depth <= 0`, it does not reject negative depths). -/
theorem generate_nonpositive_depth (g : Grammar) (d : Int) (hd : d ≤ 0) :
    generate g d = g.start := by
  unfold generate
  rw [show d.toNat = 0 by omega]
  rfl

theorem generate_nonpositive_depth_witness :
    ((-3 : Int) ≤ 0) ∧ generate ⟨['F'], [('F', "F+F-F".toList)]⟩ (-3) = ['F'] :=
  ⟨by decide, generate_nonpositive_depth ⟨['F'], [('F', "F+F-F".toList)]⟩ (-3) (by decide)⟩

/-- C5: the concrete scenario of the specification: axiom `"F"`, rule
`F -> "F+F-F"` (`+` and `-` have no rule and pass through), depth 2. -/
theorem generate_depth2_concrete :
    generate ⟨['F'], [('F', "F+F-F".toList)]⟩ 2 = "F+F-F+F+F-F-F+F-F".toList := by
  decide

/-! ## The transition matrix and the step projector -/

/-- The completeness property that the engine's symbol list
`list(set(chain(axiom, *starmap(chain, rules.items()))))` enjoys: every
symbol of the axiom, every rule key and every symbol of a rule replacement
is listed. -/
abbrev symsOK (g : Grammar) (syms : List Char) : Prop :=
  (∀ a ∈ g.start, a ∈ syms) ∧ ∀ p ∈ g.rules, p.1 ∈ syms ∧ ∀ a ∈ p.2, a ∈ syms

/-- `self.transition_matrix`: row `symbol_from`, column `symbol_to`, entry
`rule_counter[symbol_to][symbol_from]`, the number of occurrences of
`symbol_from` in `rules.get(symbol_to, symbol_to)`. -/
def transition_matrix (g : Grammar) (syms : List Char) : PyMatrix :=
  ⟨syms.map (fun symbol_from => syms.map
      (fun symbol_to => ((rulesGet g symbol_to).count symbol_from : Int)))⟩

/-- `self.initial_vector`: the column vector of the counts of each symbol in
the axiom. -/
def initial_vector (g : Grammar) (syms : List Char) : PyMatrix :=
  ⟨syms.map (fun symbol => [(g.start.count symbol : Int)])⟩

/-- The column vector of per-symbol occurrence counts of the fully
materialized depth-`depth` expansion. -/
def countsVec (g : Grammar) (syms : List Char) (depth : Int) : PyMatrix :=
  ⟨syms.map (fun symbol => [((generate g depth).count symbol : Int)])⟩

theorem lookup_mem {l : List (Char × List Char)} {k : Char} {v : List Char}
    (h : l.lookup k = some v) : (k, v) ∈ l := by
  induction l with
  | nil => cases h
  | cons p l ih =>
    obtain ⟨a, b⟩ := p
    by_cases hk : (k == a) = true
    · have hkk : k = a := by simpa using hk
      subst hkk
      rw [show List.lookup k ((k, b) :: l) = some b by simp [List.lookup]] at h
      obtain rfl : b = v := by injection h
      exact List.mem_cons_self _ _
    · rw [show List.lookup k ((a, b) :: l) = List.lookup k l by simp [List.lookup, hk]] at h
      exact List.mem_cons_of_mem _ (ih h)

theorem rulesGet_mem_syms {g : Grammar} {syms : List Char} (hok : symsOK g syms)
    {b : Char} (hb : b ∈ syms) : ∀ a ∈ rulesGet g b, a ∈ syms := by
  intro a ha
  unfold rulesGet at ha
  rcases hl : g.rules.lookup b with _ | v
  · rw [hl] at ha
    simp at ha
    simpa [ha] using hb
  · rw [hl] at ha
    exact (hok.2 _ (lookup_mem hl)).2 a ha

theorem mem_generateN {g : Grammar} {syms : List Char} (hok : symsOK g syms) :
    ∀ (n : Nat), ∀ a ∈ generateN g n, a ∈ syms := by
  intro n
  induction n with
  | zero => exact hok.1
  | succ n ih =>
    intro a ha
    rw [show generateN g (n + 1) = (generateN g n).flatMap (fun s => rulesGet g s) from rfl,
      List.mem_flatMap] at ha
    obtain ⟨b, hb, hab⟩ := ha
    exact rulesGet_mem_syms hok (ih b hb) a hab

theorem sum_ite_mem {M : Type} [AddCommMonoid M] (syms : List Char)
    (hnd : syms.Nodup) (a : Char) (ha : a ∈ syms) (F : Char → M) :
    ∑ j : Fin syms.length, (if syms.get j = a then F (syms.get j) else 0) = F a := by
  obtain ⟨j₀, hj₀⟩ := List.mem_iff_get.mp ha
  rw [Finset.sum_eq_single j₀]
  · rw [if_pos hj₀, hj₀]
  · intro j _ hne
    rw [if_neg]
    intro hja
    exact hne ((List.Nodup.get_inj_iff hnd).mp (hja.trans hj₀.symm))
  · intro h
    exact absurd (Finset.mem_univ j₀) h

theorem count_flatMap_eq {g : Grammar} {syms : List Char} (hnd : syms.Nodup) :
    ∀ (l : List Char), (∀ a ∈ l, a ∈ syms) → ∀ s : Char,
      (l.flatMap (fun sym => rulesGet g sym)).count s =
        ∑ j : Fin syms.length,
          l.count (syms.get j) * (rulesGet g (syms.get j)).count s := by
  intro l
  induction l with
  | nil => intro _ s; simp
  | cons a l ih =>
    intro hmem s
    have hal : ∀ b ∈ l, b ∈ syms := fun b hb => hmem b (by simp [hb])
    have ha : a ∈ syms := hmem a (by simp)
    rw [List.flatMap_cons, List.count_append, ih hal s]
    have hcnt : ∀ j : Fin syms.length,
        (a :: l).count (syms.get j) = l.count (syms.get j) + if a == syms.get j then 1 else 0 :=
      fun j => List.count_cons _ _ _
    calc (rulesGet g a).count s +
          ∑ j : Fin syms.length, l.count (syms.get j) * (rulesGet g (syms.get j)).count s
        = ∑ j : Fin syms.length,
            (if syms.get j = a then (rulesGet g (syms.get j)).count s else 0) +
          ∑ j : Fin syms.length, l.count (syms.get j) * (rulesGet g (syms.get j)).count s := by
          rw [sum_ite_mem syms hnd a ha (fun x => (rulesGet g x).count s)]
      _ = ∑ j : Fin syms.length, (a :: l).count (syms.get j) * (rulesGet g (syms.get j)).count s := by
          rw [← Finset.sum_add_distrib]
          apply Finset.sum_congr rfl
          intro j _
          rw [hcnt j, Nat.add_mul]
          have : (if a == syms.get j then 1 else 0) * (rulesGet g (syms.get j)).count s =
              if syms.get j = a then (rulesGet g (syms.get j)).count s else 0 := by
            rcases eq_or_ne (syms.get j) a with he | he
            · rw [if_pos he, he, beq_self_eq_true, if_pos rfl, Nat.one_mul]
            · have hne : (a == syms.get j) = false :=
                beq_eq_false_iff_ne.mpr (fun hc => he hc.symm)
              rw [if_neg he, hne, if_neg (by simp), Nat.zero_mul]
          rw [this]
          ring

theorem countP_eq_sum {syms : List Char} (hnd : syms.Nodup) :
    ∀ (l : List Char), (∀ a ∈ l, a ∈ syms) → ∀ (p : Char → Bool),
      l.countP p =
        ∑ j : Fin syms.length, (if p (syms.get j) then l.count (syms.get j) else 0) := by
  intro l
  induction l with
  | nil => intro _ p; simp
  | cons a l ih =>
    intro hmem p
    have hal : ∀ b ∈ l, b ∈ syms := fun b hb => hmem b (by simp [hb])
    have ha : a ∈ syms := hmem a (by simp)
    rw [List.countP_cons, ih hal p]
    rw [show (∑ j : Fin syms.length,
        (if p (syms.get j) then (a :: l).count (syms.get j) else 0)) =
        ∑ j : Fin syms.length,
          ((if p (syms.get j) then l.count (syms.get j) else 0) +
            (if syms.get j = a then (if p (syms.get j) then 1 else 0) else 0)) by
      apply Finset.sum_congr rfl
      intro j _
      rw [List.count_cons]
      rcases eq_or_ne (syms.get j) a with he | he
      · rw [if_pos he, he, beq_self_eq_true]
        by_cases hp : p a <;> simp [hp]
      · have hne : (a == syms.get j) = false :=
          beq_eq_false_iff_ne.mpr (fun hc => he hc.symm)
        rw [if_neg he, hne]
        by_cases hp : p (syms.get j)
        · rw [if_pos hp, if_pos hp]
          simp
        · rw [if_neg hp, if_neg hp]]
    rw [Finset.sum_add_distrib,
      sum_ite_mem syms hnd a ha (fun x => if p x then 1 else 0)]

/-- The transition matrix as a Mathlib matrix over the symbol indices. -/
def TmM (g : Grammar) (syms : List Char) :
    Matrix (Fin syms.length) (Fin syms.length) Int :=
  Matrix.of fun i j => ((rulesGet g (syms.get j)).count (syms.get i) : Int)

/-- The per-symbol counts of the depth-`n` expansion as a Mathlib column. -/
def cntV (g : Grammar) (syms : List Char) (n : Nat) :
    Matrix (Fin syms.length) (Fin 1) Int :=
  Matrix.of fun i _ => ((generateN g n).count (syms.get i) : Int)

theorem TmM_mul_cntV {g : Grammar} {syms : List Char}
    (hnd : syms.Nodup) (hok : symsOK g syms) (n : Nat) :
    TmM g syms * cntV g syms n = cntV g syms (n + 1) := by
  ext i j
  simp only [Matrix.mul_apply, TmM, cntV, Matrix.of_apply]
  rw [show generateN g (n + 1) = (generateN g n).flatMap (fun s => rulesGet g s) from rfl,
    count_flatMap_eq hnd (generateN g n) (mem_generateN hok n) (syms.get i)]
  push_cast
  apply Finset.sum_congr rfl
  intro l _
  ring

theorem TmM_pow_cntV {g : Grammar} {syms : List Char}
    (hnd : syms.Nodup) (hok : symsOK g syms) :
    ∀ n : Nat, (TmM g syms) ^ n * cntV g syms 0 = cntV g syms n := by
  intro n
  induction n with
  | zero => rw [pow_zero, Matrix.one_mul]
  | succ n ih =>
    rw [pow_succ', Matrix.mul_assoc, ih, TmM_mul_cntV hnd hok n]

theorem wf_transition (g : Grammar) (syms : List Char) :
    (transition_matrix g syms).WF syms.length syms.length := by
  refine ⟨by simp [transition_matrix], ?_⟩
  intro row hrow
  simp only [transition_matrix, List.mem_map] at hrow
  obtain ⟨s, _, rfl⟩ := hrow
  simp

theorem wf_initial (g : Grammar) (syms : List Char) :
    (initial_vector g syms).WF syms.length 1 := by
  refine ⟨by simp [initial_vector], ?_⟩
  intro row hrow
  simp only [initial_vector, List.mem_map] at hrow
  obtain ⟨s, _, rfl⟩ := hrow
  simp

theorem wf_counts (g : Grammar) (syms : List Char) (depth : Int) :
    (countsVec g syms depth).WF syms.length 1 := by
  refine ⟨by simp [countsVec], ?_⟩
  intro row hrow
  simp only [countsVec, List.mem_map] at hrow
  obtain ⟨s, _, rfl⟩ := hrow
  simp

theorem toMat_transition (g : Grammar) (syms : List Char) :
    (transition_matrix g syms).toMat syms.length syms.length = TmM g syms := by
  ext i j
  simp only [PyMatrix.toMat, Matrix.of_apply, PyMatrix.entry, TmM, transition_matrix]
  rw [getD_map_of_lt _ _ _ _ i.isLt, getD_map_of_lt _ _ _ _ j.isLt]

theorem toMat_initial (g : Grammar) (syms : List Char) :
    (initial_vector g syms).toMat syms.length 1 = cntV g syms 0 := by
  ext i j
  simp only [PyMatrix.toMat, Matrix.of_apply, PyMatrix.entry, cntV, initial_vector]
  rw [getD_map_of_lt _ _ _ _ i.isLt]
  have hj : (j : Nat) = 0 := by omega
  rw [hj]
  rfl

theorem toMat_counts (g : Grammar) (syms : List Char) (n : Nat) :
    (countsVec g syms (↑n)).toMat syms.length 1 = cntV g syms n := by
  ext i j
  simp only [PyMatrix.toMat, Matrix.of_apply, PyMatrix.entry, cntV, countsVec]
  rw [getD_map_of_lt _ _ _ _ i.isLt]
  rw [show generate g (↑n) = generateN g n by unfold generate; rw [Int.toNat_ofNat]]
  have hj : (j : Nat) = 0 := by omega
  rw [hj]
  rfl

/-- C1: for every grammar, every duplicate-free complete symbol ordering and
every depth `0 ≤ n ≤ 6`, the code's `T ** n * v0` (transition matrix built by
`generate_transition_matrix`, exponentiation and product by the `Matrix`
class) returns exactly the per-symbol occurrence counts of the fully
materialized depth-`n` expansion produced by `generate`. -/
theorem transition_pow_counts (g : Grammar) (syms : List Char)
    (hnd : syms.Nodup) (hok : symsOK g syms) (n : Nat) (hn : n ≤ 6) :
    ∃ P, (transition_matrix g syms).pow (↑n) = .ok P ∧
      P.mul (initial_vector g syms) = some (countsVec g syms (↑n)) := by
  obtain ⟨P, hP, hPwf, hPval⟩ := PyMatrix.pow_ok (wf_transition g syms) n
  refine ⟨P, hP, ?_⟩
  rw [PyMatrix.mul_eq_some hPwf (wf_initial g syms)]
  congr 1
  have hcond : 0 < syms.length ∨ 1 = 0 ∨ syms.length = 0 := by omega
  refine PyMatrix.wf_ext (PyMatrix.mulT_wf hPwf (wf_initial g syms) hcond)
    (wf_counts g syms (↑n)) ?_
  rw [PyMatrix.toMat_mulT hPwf (wf_initial g syms), hPval, toMat_transition,
    toMat_initial, toMat_counts, TmM_pow_cntV hnd hok n]

theorem transition_pow_counts_witness :
    ((['F', '+', '-'] : List Char).Nodup ∧
      symsOK ⟨['F'], [('F', "F+F-F".toList)]⟩ ['F', '+', '-'] ∧ (2 : Nat) ≤ 6) ∧
    ∃ P, (transition_matrix ⟨['F'], [('F', "F+F-F".toList)]⟩ ['F', '+', '-']).pow
        ((2 : Nat) : Int) = .ok P ∧
      P.mul (initial_vector ⟨['F'], [('F', "F+F-F".toList)]⟩ ['F', '+', '-']) =
        some (countsVec ⟨['F'], [('F', "F+F-F".toList)]⟩ ['F', '+', '-'] ((2 : Nat) : Int)) :=
  ⟨⟨by decide, ⟨by decide, by decide⟩, by decide⟩,
    transition_pow_counts ⟨['F'], [('F', "F+F-F".toList)]⟩ ['F', '+', '-']
      (by decide) ⟨by decide, by decide⟩ 2 (by decide)⟩

/-- Python's `self.array[0][0]`: raises `IndexError` (modelled by `none`)
when the matrix has no rows or its first row is empty. -/
def idx00 (M : PyMatrix) : Option Int :=
  match M.array with
  | [] => none
  | row :: _ =>
    match row with
    | [] => none
    | v :: _ => some v

/-- `LSystemFractal.project_steps(iterations)`:
`(Matrix([self.symbol_steps]) * self.transition_matrix ** iterations *
self.initial_vector).array[0][0]`, where `symbol_steps` holds the probe
results `[draw_rules[symbol]() for symbol in self.symbols]` obtained against
the no-op `DummyTurtle` (here the function `symSteps`). -/
def project_steps (g : Grammar) (syms : List Char) (symSteps : Char → Int)
    (iterations : Int) : Option Int :=
  match (transition_matrix g syms).pow iterations with
  | .ok P =>
    match (PyMatrix.mk [syms.map symSteps]).mul P with
    | some R1 =>
      match R1.mul (initial_vector g syms) with
      | some R2 => idx00 R2
      | none => none
    | none => none
  | _ => none

theorem idx00_of_wf {M : PyMatrix} (h : M.WF 1 1) :
    idx00 M = some (M.entry 0 0) := by
  obtain ⟨hl, hr⟩ := h
  obtain ⟨row, hrow⟩ := List.length_eq_one.mp hl
  obtain ⟨v, hv⟩ := List.length_eq_one.mp (hr row (by rw [hrow]; simp))
  have harr : M.array = [[v]] := by rw [hrow, hv]
  simp [idx00, harr, PyMatrix.entry]

theorem steps_dot_counts {syms : List Char} {symSteps : Char → Int}
    (hnd : syms.Nodup) (hb : ∀ s ∈ syms, symSteps s = 0 ∨ symSteps s = 1)
    (l : List Char) (hl : ∀ a ∈ l, a ∈ syms) :
    ∑ j : Fin syms.length, symSteps (syms.get j) * ((l.count (syms.get j) : Int)) =
      ((l.countP (fun s => symSteps s == 1) : Nat) : Int) := by
  rw [countP_eq_sum hnd l hl (fun s => symSteps s == 1)]
  push_cast
  apply Finset.sum_congr rfl
  intro j _
  rcases hb (syms.get j) (List.get_mem _ _ _) with h0 | h1
  · rw [h0]
    simp [h0]
  · rw [h1]
    simp [h1]

theorem wf_stepsRow (syms : List Char) (symSteps : Char → Int) :
    (PyMatrix.mk [syms.map symSteps]).WF 1 syms.length := by
  refine ⟨rfl, ?_⟩
  intro row hrow
  simp only [List.mem_singleton] at hrow
  rw [hrow]
  simp

/-- The general computation behind the step projector: with a nonempty
symbol list and a probe reporting `0` or `1` per symbol, `project_steps`
returns the number of stepping-symbol occurrences of the expansion. -/
theorem project_steps_eq (g : Grammar) (syms : List Char) (symSteps : Char → Int)
    (hnd : syms.Nodup) (hok : symsOK g syms) (hne : syms ≠ [])
    (hb : ∀ s ∈ syms, symSteps s = 0 ∨ symSteps s = 1) (d : Nat) :
    project_steps g syms symSteps (↑d) =
      some (((generate g (↑d)).countP (fun s => symSteps s == 1) : Nat) : Int) := by
  have hk : 0 < syms.length := List.length_pos.mpr hne
  obtain ⟨P, hP, hPwf, hPval⟩ := PyMatrix.pow_ok (wf_transition g syms) d
  have hrow := wf_stepsRow syms symSteps
  have hcond1 : 0 < syms.length ∨ syms.length = 0 ∨ 1 = 0 := Or.inl hk
  have hmul1 := PyMatrix.mul_eq_some hrow hPwf
  have hwf1 := PyMatrix.mulT_wf hrow hPwf hcond1
  have hcond2 : 0 < syms.length ∨ 1 = 0 ∨ 1 = 0 := Or.inl hk
  have hmul2 := PyMatrix.mul_eq_some hwf1 (wf_initial g syms)
  have hwf2 := PyMatrix.mulT_wf hwf1 (wf_initial g syms) hcond2
  rw [show project_steps g syms symSteps (↑d) =
      idx00 (((PyMatrix.mk [syms.map symSteps]).mulT P).mulT (initial_vector g syms)) by
    simp only [project_steps, hP, hmul1, hmul2]]
  rw [idx00_of_wf hwf2]
  congr 1
  have hent : (((PyMatrix.mk [syms.map symSteps]).mulT P).mulT
      (initial_vector g syms)).entry 0 0 =
      ((((PyMatrix.mk [syms.map symSteps]).mulT P).mulT
        (initial_vector g syms)).toMat 1 1) ⟨0, Nat.one_pos⟩ ⟨0, Nat.one_pos⟩ := rfl
  rw [hent, PyMatrix.toMat_mulT hwf1 (wf_initial g syms),
    PyMatrix.toMat_mulT hrow hPwf, hPval, toMat_transition, toMat_initial,
    Matrix.mul_assoc, TmM_pow_cntV hnd hok d, Matrix.mul_apply]
  rw [show generate g (↑d) = generateN g d by unfold generate; rw [Int.toNat_ofNat]]
  rw [← steps_dot_counts hnd hb (generateN g d) (mem_generateN hok d)]
  apply Finset.sum_congr rfl
  intro j _
  simp only [PyMatrix.toMat, Matrix.of_apply, PyMatrix.entry, cntV]
  rw [show ((PyMatrix.mk [syms.map symSteps]).array.getD 0 []) = syms.map symSteps from rfl,
    getD_map_of_lt _ _ _ _ j.isLt]

/-- C2 counterexample: on the empty grammar (empty axiom, no rules) the
symbol list is empty, and `project_steps(0)` does not return the
stepping-symbol count of the axiom (which is `0`): the final
`.array[0][0]` indexes the first entry of the empty row of the degenerate
`1 x 0` product and raises `IndexError` (modelled by `none`). -/
theorem project_steps_empty_grammar_cex :
    project_steps ⟨[], []⟩ [] (fun _ => 1) 0 = none ∧
    (generate ⟨[], []⟩ 0).countP (fun s => (1 : Int) == 1) = 0 := by
  decide

/-- C2 (amended): for every grammar with a nonempty symbol list, whose
drawing-rule probe reports `0` or `1` steps per symbol (the boolean
"stepping symbol" judgement of the specification), and every depth
`0 ≤ d ≤ 6`, `project_steps(d)` equals the number of stepping-symbol
occurrences in the fully materialized depth-`d` expansion; in particular at
depth `0` it equals the stepping-symbol count of the axiom. -/
theorem project_steps_counts_stepping (g : Grammar) (syms : List Char)
    (symSteps : Char → Int) (hnd : syms.Nodup) (hok : symsOK g syms)
    (hne : syms ≠ []) (hb : ∀ s ∈ syms, symSteps s = 0 ∨ symSteps s = 1)
    (d : Nat) (hd : d ≤ 6) :
    project_steps g syms symSteps (↑d) =
      some (((generate g (↑d)).countP (fun s => symSteps s == 1) : Nat) : Int) ∧
    project_steps g syms symSteps 0 =
      some ((g.start.countP (fun s => symSteps s == 1) : Nat) : Int) := by
  refine ⟨project_steps_eq g syms symSteps hnd hok hne hb d, ?_⟩
  have h0 := project_steps_eq g syms symSteps hnd hok hne hb 0
  rw [show ((0 : Nat) : Int) = (0 : Int) from rfl] at h0
  rw [h0]
  rfl

theorem project_steps_counts_stepping_witness :
    ((['F', '+', '-'] : List Char).Nodup ∧
      symsOK ⟨['F'], [('F', "F+F-F".toList)]⟩ ['F', '+', '-'] ∧
      (['F', '+', '-'] : List Char) ≠ [] ∧
      (∀ s ∈ (['F', '+', '-'] : List Char),
        (fun c => if c = 'F' then (1 : Int) else 0) s = 0 ∨
        (fun c => if c = 'F' then (1 : Int) else 0) s = 1) ∧ (2 : Nat) ≤ 6) ∧
    (project_steps ⟨['F'], [('F', "F+F-F".toList)]⟩ ['F', '+', '-']
        (fun c => if c = 'F' then (1 : Int) else 0) ((2 : Nat) : Int) =
      some (((generate ⟨['F'], [('F', "F+F-F".toList)]⟩ ((2 : Nat) : Int)).countP
        (fun s => (if s = 'F' then (1 : Int) else 0) == 1) : Nat) : Int) ∧
      project_steps ⟨['F'], [('F', "F+F-F".toList)]⟩ ['F', '+', '-']
        (fun c => if c = 'F' then (1 : Int) else 0) 0 =
      some ((['F'].countP (fun s => (if s = 'F' then (1 : Int) else 0) == 1) : Nat) : Int)) :=
  ⟨⟨by decide, ⟨by decide, by decide⟩, by decide, by decide, by decide⟩,
    project_steps_counts_stepping ⟨['F'], [('F', "F+F-F".toList)]⟩ ['F', '+', '-']
      (fun c => if c = 'F' then (1 : Int) else 0) (by decide) ⟨by decide, by decide⟩
      (by decide) (by decide) 2 (by decide)⟩

/-- C6 counterexample: with the symbol ordering `[F, +, -]` and the rule
`F -> "F+F-F"`, the transition matrix the engine builds is not the
`[[3,0,0],[2,1,0],[1,0,1]]` stated in the specification: the replacement
`"F+F-F"` contains `+` once, not twice. -/
theorem transition_matrix_concrete_cex :
    transition_matrix ⟨['F'], [('F', "F+F-F".toList)]⟩ ['F', '+', '-'] ≠
      PyMatrix.mk [[3, 0, 0], [2, 1, 0], [1, 0, 1]] := by
  decide

/-- C6 (amended): with rows and columns ordered `[F, +, -]`, the engine
builds the transition matrix `[[3,0,0],[1,1,0],[1,0,1]]`, and the code's
`T ** 2 * [[1],[0],[0]]` equals `[[9],[4],[4]]`, the exact per-symbol count
vector of the depth-2 expansion `"F+F-F+F+F-F-F+F-F"`. -/
theorem transition_matrix_concrete :
    transition_matrix ⟨['F'], [('F', "F+F-F".toList)]⟩ ['F', '+', '-'] =
      PyMatrix.mk [[3, 0, 0], [1, 1, 0], [1, 0, 1]] ∧
    initial_vector ⟨['F'], [('F', "F+F-F".toList)]⟩ ['F', '+', '-'] =
      PyMatrix.mk [[1], [0], [0]] ∧
    ∃ P, (transition_matrix ⟨['F'], [('F', "F+F-F".toList)]⟩ ['F', '+', '-']).pow 2 = .ok P ∧
      P.mul (initial_vector ⟨['F'], [('F', "F+F-F".toList)]⟩ ['F', '+', '-']) =
        some (PyMatrix.mk [[9], [4], [4]]) ∧
      countsVec ⟨['F'], [('F', "F+F-F".toList)]⟩ ['F', '+', '-'] 2 =
        PyMatrix.mk [[9], [4], [4]] ∧
      generate ⟨['F'], [('F', "F+F-F".toList)]⟩ 2 = "F+F-F+F+F-F-F+F-F".toList := by
  refine ⟨by decide, by decide, PyMatrix.mk [[9, 0, 0], [4, 1, 0], [4, 0, 1]], ?_⟩
  decide

/-! ## The drawing turtle: `ProcessingTurtle` of `drawing.py` -/

/-- `math.radians(x) = x * pi / 180`. -/
noncomputable def radians (x : Real) : Real := x * (Real.pi / 180)

/-- Python's float modulo for the positive modulus used by `turn_degrees`:
`a % m = a - m * floor(a / m)`. -/
noncomputable def fmodR (a m : Real) : Real := a - m * ⌊a / m⌋

/-- The mutable state of a `ProcessingTurtle`.  The `graphics` collaborator
only receives line-drawing calls (external output the turtle never reads
back), so it does not appear in the state. -/
structure ProcessingTurtle where
  x : Real
  y : Real
  heading : Real
  _pendown : Bool
  input_scale : Real
  output_scale : Real
  times_moved : Nat
  state_stack : List (Real × Real × Real × Bool)

def ProcessingTurtle.jump (t : ProcessingTurtle) (nx ny : Real) : ProcessingTurtle :=
  { t with x := nx, y := ny }

/-- `setpos` emits a line through the external `graphics` handle when the
pen is down; its state change is exactly the jump. -/
def ProcessingTurtle.setpos (t : ProcessingTurtle) (nx ny : Real) : ProcessingTurtle :=
  t.jump nx ny

noncomputable def ProcessingTurtle.setheading_degrees
    (t : ProcessingTurtle) (h : Real) : ProcessingTurtle :=
  { t with heading := radians h }

noncomputable def ProcessingTurtle.forward
    (t : ProcessingTurtle) (steps : Real) : ProcessingTurtle :=
  let t2 := t.setpos (t.x + steps / t.input_scale * Real.cos t.heading)
      (t.y + steps / t.input_scale * Real.sin t.heading)
  { t2 with times_moved := t2.times_moved + 1 }

noncomputable def ProcessingTurtle.turn_degrees
    (t : ProcessingTurtle) (angle : Real) : ProcessingTurtle :=
  { t with heading := fmodR (t.heading + radians angle) (2 * Real.pi) }

def ProcessingTurtle.penup (t : ProcessingTurtle) : ProcessingTurtle :=
  { t with _pendown := false }

def ProcessingTurtle.pendown (t : ProcessingTurtle) : ProcessingTurtle :=
  { t with _pendown := true }

def ProcessingTurtle.save_state (t : ProcessingTurtle) : ProcessingTurtle :=
  { t with state_stack := (t.x, t.y, t.heading, t._pendown) :: t.state_stack }

/-- `restore_state` pops the saved tuple; `list.pop()` on an empty stack
raises `IndexError`, modelled by `none`. -/
def ProcessingTurtle.restore_state (t : ProcessingTurtle) : Option ProcessingTurtle :=
  match t.state_stack with
  | [] => none
  | (sx, sy, sh, sp) :: rest =>
    some { t with x := sx, y := sy, heading := sh, _pendown := sp, state_stack := rest }

/-- The mutating turtle operations named by the specification's save/mutate/
restore property. -/
inductive MutOp where
  | forward (steps : Real)
  | turn_degrees (angle : Real)
  | jump (nx ny : Real)
  | setheading_degrees (h : Real)
  | penup
  | pendown

noncomputable def execOp (t : ProcessingTurtle) : MutOp → ProcessingTurtle
  | .forward s => t.forward s
  | .turn_degrees a => t.turn_degrees a
  | .jump nx ny => t.jump nx ny
  | .setheading_degrees h => t.setheading_degrees h
  | .penup => t.penup
  | .pendown => t.pendown

noncomputable def execOps (t : ProcessingTurtle) (ops : List MutOp) : ProcessingTurtle :=
  ops.foldl execOp t

theorem execOp_stack (t : ProcessingTurtle) (op : MutOp) :
    (execOp t op).state_stack = t.state_stack := by
  cases op <;> rfl

theorem execOps_stack (ops : List MutOp) :
    ∀ t : ProcessingTurtle, (execOps t ops).state_stack = t.state_stack := by
  induction ops with
  | nil => intro t; rfl
  | cons op ops ih =>
    intro t
    rw [show execOps t (op :: ops) = execOps (execOp t op) ops from rfl, ih,
      execOp_stack]

/-- C9: from any turtle state, `save_state`, then any sequence of the
mutating operations `forward`, `turn_degrees`, `jump`,
`setheading_degrees`, `penup`, `pendown`, then `restore_state`, returns the
position, heading and pen-down flag exactly to their values at the moment
of the save (and the restore succeeds: the stack discipline guarantees the
stack is nonempty). -/
theorem save_restore_roundtrip (t : ProcessingTurtle) (ops : List MutOp) :
    ∃ t2, (execOps t.save_state ops).restore_state = some t2 ∧
      t2.x = t.x ∧ t2.y = t.y ∧ t2.heading = t.heading ∧ t2._pendown = t._pendown := by
  have hstack : (execOps t.save_state ops).state_stack =
      (t.x, t.y, t.heading, t._pendown) :: t.state_stack := by
    rw [execOps_stack]
    rfl
  have h2 : (execOps t.save_state ops).restore_state =
      some { execOps t.save_state ops with
             x := t.x
             y := t.y
             heading := t.heading
             _pendown := t._pendown
             state_stack := t.state_stack } := by
    simp only [ProcessingTurtle.restore_state, hstack]
  exact ⟨_, h2, rfl, rfl, rfl, rfl⟩
